import Mathlib

/-!
Verification of the aider code-edit pipeline.

The development shallowly embeds the edit pipeline of the repository:
the fuzzy patch applier (`replace_most_similar_chunk`), the edit block
parser (`find_original_update_blocks`) and the repo map builder
(`repomap.py`: `to_tree`, `get_tags`, `get_tags_map`,
`choose_files_listing`, `check_for_ctags`, `get_repo_map`).

The applier and the parser live in `aider/utils.py`, which is not part
of the sources available here (only `tests/test_utils.py` is), so those
two components are modelled from the specification, with the repository
test suite pinning the concrete behaviours it asserts.  The repo map
builder is translated from `aider/repomap.py` directly; its external
collaborators (the ctags subprocess, json decoding of its output,
`os.path.getmtime`, `os.path.relpath`, the tiktoken tokenizer) are
supplied as an explicit environment record.
-/

/-! ## Basic string utilities (lines and substrings) -/

/-- Split a character list at every occurrence of the separator `c`,
keeping empty fragments, like python `str.split(sep)`. -/
def splitCharAll (c : Char) : List Char → List String
  | [] => [""]
  | d :: ds =>
    let rest := splitCharAll c ds
    if d = c then "" :: rest
    else match rest with
      | [] => [String.mk [d]]
      | r :: rs => String.mk (d :: r.data) :: rs

/-- Split a string into its lines, like python `str.splitlines()` for
newline-only input: a trailing newline produces no extra empty line and
the empty string has no lines. -/
def splitLines (s : String) : List String :=
  let parts := splitCharAll '\n' s.data
  match parts.getLast? with
  | some last => if last = "" then parts.dropLast else parts
  | none => parts

/-- Join lines back into text, terminating every line with a newline. -/
def joinLines (ls : List String) : String :=
  String.join (ls.map (fun l => l ++ "\n"))

/-- Does `needle` occur contiguously inside the character list? -/
def containsSub (needle : List Char) : List Char → Bool
  | [] => needle.isPrefixOf ([] : List Char)
  | c :: cs => needle.isPrefixOf (c :: cs) || containsSub needle cs

/-- Boolean substring test on strings, via the underlying character
lists. -/
def strContains (hay needle : String) : Bool :=
  containsSub needle.data hay.data

/-- Whitespace characters stripped by python `str.strip()` that can
occur inside one line of text. -/
def isTrimWs (c : Char) : Bool := c = ' ' || c = '\t' || c = '\r'

/-- Strip leading and trailing whitespace from a string, like python
`str.strip()` on a single line. -/
def strTrim (s : String) : String :=
  String.mk (((s.data.dropWhile isTrimWs).reverse.dropWhile isTrimWs).reverse)

/-- Does the string start with the given literal text? -/
def strStartsWith (s pre : String) : Bool :=
  pre.data.isPrefixOf s.data

instance {ε α : Type} [DecidableEq ε] [DecidableEq α] : DecidableEq (Except ε α) :=
  fun a b =>
    match a, b with
    | .ok x, .ok y => if h : x = y then .isTrue (by rw [h]) else .isFalse (by simp [h])
    | .error e, .error f => if h : e = f then .isTrue (by rw [h]) else .isFalse (by simp [h])
    | .ok _, .error _ => .isFalse (by simp)
    | .error _, .ok _ => .isFalse (by simp)

/-! ## Fuzzy patch applier (`aider/utils.py`, absent from the sources)

Modelled from the spec: `applyEdit(whole, original, updated)` tries an
ordered sequence of strategies, the first of which is the exact
substring match: if `original` occurs verbatim in `whole`, replace the
first occurrence with `updated`. -/

/-- Modelled from the spec: exact-substring replacement of the first
occurrence of `part` inside the text, or `none` when `part` does not
occur.  Works on character lists; scanning from the left makes the
first (leftmost) occurrence the one replaced. -/
def replaceFirstSub (part repl : List Char) : List Char → Option (List Char)
  | [] => if part.isPrefixOf ([] : List Char) then some repl else none
  | w :: ws =>
    if part.isPrefixOf (w :: ws) then some (repl ++ (w :: ws).drop part.length)
    else (replaceFirstSub part repl ws).map (fun r => w :: r)

/-- True when the character is a blank (space or tab), the whitespace
that can occur inside a single line. -/
def isWsChar (c : Char) : Bool := c = ' ' || c = '\t'

/-- Collapse runs of blanks to a single space; with the flag initially
true, a leading run is dropped entirely. -/
def squashWs : List Char → Bool → List Char
  | [], _ => []
  | c :: cs, prevWs =>
    if isWsChar c then
      if prevWs then squashWs cs true else ' ' :: squashWs cs true
    else c :: squashWs cs false

/-- Modelled from the spec: whitespace normalization of one line for
the whitespace-normalized matching strategy; internal whitespace runs
become one space and surrounding whitespace is stripped. -/
def normLine (l : String) : String :=
  String.mk (((squashWs l.data true).reverse.dropWhile isWsChar).reverse)

/-- A line consisting only of whitespace. -/
def isBlankLine (l : String) : Bool := l.data.all isWsChar

/-- Strip leading and trailing blank lines. -/
def stripBlankEnds (ls : List String) : List String :=
  ((ls.dropWhile isBlankLine).reverse.dropWhile isBlankLine).reverse

/-- Leading indentation of a line. -/
def indentOf (l : String) : String := String.mk (l.data.takeWhile isWsChar)

/-- Modelled from the spec: slide a window of `n` lines over the file
lines; at the first window whose normalized lines equal `partNorm`,
replace the window with the replacement lines, re-applying the
window leading indentation to each replacement line. -/
def tryWsWindows (partNorm : List String) (n : Nat) (replLines : List String) :
    List String → Option (List String)
  | [] => if n = 0 ∧ partNorm = [] then some replLines else none
  | w :: rest =>
    if n ≤ (w :: rest).length ∧ ((w :: rest).take n).map normLine = partNorm then
      some (replLines.map (fun l => indentOf w ++ l) ++ (w :: rest).drop n)
    else (tryWsWindows partNorm n replLines rest).map (fun r => w :: r)

/-- Modelled from the spec: the whitespace-normalized matching
strategy of the applier (strategy 2). -/
def ws_norm_replace (whole part repl : String) : Option String :=
  let pl := stripBlankEnds (splitLines part)
  match tryWsWindows (pl.map normLine) pl.length (splitLines repl) (splitLines whole) with
  | some ls => some (joinLines ls)
  | none => none

/-- Modelled from the spec: `replace_most_similar_chunk` from
`aider/utils.py`, which is not among the available sources.  Strategy 1
is the exact substring match replacing the first occurrence; strategy 2
is the whitespace-normalized window match; the final
similarity-scored strategy is a tunable policy whose metric and
threshold the spec leaves open, so the model conservatively reports no
usable match (`none`) when the first two strategies fail. -/
def replace_most_similar_chunk (whole part repl : String) : Option String :=
  match replaceFirstSub part.data repl.data whole.data with
  | some cs => some (String.mk cs)
  | none => ws_norm_replace whole part repl

/-! ## Edit block parser (`aider/utils.py`, absent from the sources)

Modelled from the spec: `find_original_update_blocks` is a state
machine over the lines of the model output.  A block is delimited by
the three literal marker lines ORIGINAL, SEPARATOR and UPDATED; the
filename is found by a bounded backward scan (the spec design notes
prescribe a bounded lookback buffer of the few lines immediately
preceding the marker; two lines reproduce every behaviour the
repository test suite asserts, including skipping a fence-opening line
in favour of the line above it).  A missing filename or an input that
ends inside a block fails the whole parse with a descriptive error. -/

/-- One parsed edit instruction: filename, original text, updated text. -/
abbrev EditBlock := String × String × String

/-- The literal ORIGINAL marker line, matched after stripping. -/
def isOriginalMarker (l : String) : Bool := strTrim l = "<<<<<<< ORIGINAL"

/-- The literal SEPARATOR marker line, matched after stripping. -/
def isDividerMarker (l : String) : Bool := strTrim l = "======="

/-- The literal UPDATED marker line, matched after stripping. -/
def isUpdatedMarker (l : String) : Bool := strTrim l = ">>>>>>> UPDATED"

/-- Any of the three protocol marker lines. -/
def isMarkerLine (l : String) : Bool :=
  isOriginalMarker l || isDividerMarker l || isUpdatedMarker l

/-- Modelled from the spec: a line usable as a filename line must be
non-empty after stripping, must not be a fence-opening line and must
not be one of the protocol markers. -/
def isValidFilenameLine (l : String) : Bool :=
  let t := strTrim l
  t ≠ "" && !(strStartsWith t ("```")) && !isMarkerLine l

/-- Modelled from the spec: bounded backward scan for the filename of
a block.  `p1` is the line immediately before the ORIGINAL marker and
`p2` the line before that (`none` when no such line exists inside the
current lookback window); a fence-opening or blank `p1` is skipped in
favour of `p2`. -/
def findFilename (p1 p2 : Option String) : Option String :=
  match p1 with
  | none => none
  | some l =>
    if isValidFilenameLine l then some (strTrim l)
    else match p2 with
      | none => none
      | some l2 => if isValidFilenameLine l2 then some (strTrim l2) else none

/-- Error reported when the backward scan finds no filename line. -/
def missingFilenameErr : String :=
  "Bad/missing filename. The filename must be on the line before the opening fence."

/-- Error reported when the input ends inside a block. -/
def incompleteErr : String := "Incomplete ORIGINAL/UPDATED block."

/-- Parser state: scanning between blocks (with the two-line lookback
buffer), inside the original region, or inside the updated region. -/
inductive PState where
  | scan (p1 p2 : Option String)
  | inOrig (fname : String) (orig : List String)
  | inUpd (fname : String) (orig upd : List String)
deriving DecidableEq

/-- One transition of the parser state machine: consume one line,
producing the next state and the blocks emitted by this line. -/
def stepLine (st : PState) (l : String) : Except String (PState × List EditBlock) :=
  match st with
  | .scan p1 p2 =>
    if isOriginalMarker l then
      match findFilename p1 p2 with
      | some f => .ok (.inOrig f [], [])
      | none => .error missingFilenameErr
    else .ok (.scan (some l) p1, [])
  | .inOrig f orig =>
    if isDividerMarker l then .ok (.inUpd f orig [], [])
    else .ok (.inOrig f (orig ++ [l]), [])
  | .inUpd f orig upd =>
    if isUpdatedMarker l then
      .ok (.scan none none, [(f, joinLines orig, joinLines upd)])
    else .ok (.inUpd f orig (upd ++ [l]), [])

/-- Run the state machine over a list of lines, accumulating emitted
blocks in document order. -/
def runLines : List String → PState → Except String (PState × List EditBlock)
  | [], st => .ok (st, [])
  | l :: ls, st =>
    match stepLine st l with
    | .error e => .error e
    | .ok (st1, bs) =>
      match runLines ls st1 with
      | .error e => .error e
      | .ok (st2, bs2) => .ok (st2, bs ++ bs2)

/-- The initial parser state: scanning, with an empty lookback buffer. -/
def initPState : PState := .scan none none

/-- Parse a full document given as a list of lines: run the machine
and reject an input that ends inside a block. -/
def parseLinesAll (lines : List String) : Except String (List EditBlock) :=
  match runLines lines initPState with
  | .error e => .error e
  | .ok (st, bs) =>
    match st with
    | .scan _ _ => .ok bs
    | .inOrig _ _ => .error incompleteErr
    | .inUpd _ _ _ => .error incompleteErr

/-- Modelled from the spec: `find_original_update_blocks` from
`aider/utils.py`, which is not among the available sources: split the
raw model text into lines and run the parser state machine. -/
def find_original_update_blocks (content : String) : Except String (List EditBlock) :=
  parseLinesAll (splitLines content)


/-! ## Repo map builder (`aider/repomap.py`)

Translated from the source.  A Tag is the ordered list of string
components the source builds (`split_path`, scope, kind, name with
signature).  The external collaborators — the ctags subprocess, json
decoding of its output lines, `os.path.getmtime`, `os.path.relpath`
and the tiktoken tokenizer — are supplied as a `CtagsEnv` record; the
process-global `TAGS_CACHE` dict is passed as explicit state. -/

/-- Strict lexicographic comparison of character lists by code point,
python string `<`. -/
def strLtChars : List Char → List Char → Bool
  | [], [] => false
  | [], _ :: _ => true
  | _ :: _, [] => false
  | a :: as, b :: bs =>
    if a.toNat < b.toNat then true
    else if b.toNat < a.toNat then false
    else strLtChars as bs

/-- Strict python-style string comparison. -/
def strLtB (a b : String) : Bool := strLtChars a.data b.data

/-- Python list-of-strings comparison `a <= b`: elementwise, with a
shorter list smaller than any extension of it. -/
def tagLe : List String → List String → Bool
  | [], _ => true
  | _ :: _, [] => false
  | a :: as, b :: bs =>
    if strLtB a b then true
    else if strLtB b a then false
    else tagLe as bs

/-- Insert one tag into an already sorted list of tags. -/
def insertSorted (t : List String) : List (List String) → List (List String)
  | [] => [t]
  | h :: hs => if tagLe t h then t :: h :: hs else h :: insertSorted t hs

/-- The `sorted(tags)` call of `to_tree`: sort the tag lists in python
lexicographic order (insertion sort; ties are identical lists, so the
result agrees with any stable sort). -/
def sortTags : List (List String) → List (List String)
  | [] => []
  | t :: ts => insertSorted t (sortTags ts)

/-- The for/break scan of `to_tree` computing `num_common`: walk
`i` over the indices of `last`; at the first index where `last`
and the current tag differ return it; if no index in range differs the
loop falls through with `i = len(last) - 1`.  Returns `none` where the
source would crash: `last` empty (the loop variable is never bound) or
the current tag exhausted while indices remain (`tag[i]` out of
range). -/
def findBreak : List (Option String) → List String → Option Nat
  | [], _ => none
  | _ :: _, [] => none
  | [_], _ :: _ => some 0
  | o :: o2 :: os, t0 :: _ts =>
    if o = some t0 then (findBreak (o2 :: os) _ts).map (fun k => k + 1) else some 0

/-- A run of `k` tab characters. -/
def tabs (k : Nat) : String := String.mk (List.replicate k '\t')

/-- Emit the remaining components of one tag, one per line, the
indentation growing by one tab per component. -/
def emitItems (indent : String) : List String → String
  | [] => ""
  | x :: xs => indent ++ x ++ "\n" ++ emitItems (indent ++ "\t") xs

/-- Emit one tag starting at indentation depth `k`, printing the
components from index `k` on. -/
def emitTag (k : Nat) (tag : List String) : String := emitItems (tabs k) (tag.drop k)

/-- The rendering loop of `to_tree` over the sorted tags, carrying the
previous tag (`last` in the source) as a list of optional components;
`none` models a crash of the source loop. -/
def toTreeLoop : List (Option String) → List (List String) → Option String
  | _, [] => some ""
  | last, tag :: rest =>
    match findBreak last tag with
    | none => none
    | some k =>
      match toTreeLoop (tag.map some) rest with
      | none => none
      | some s => some (emitTag k tag ++ s)

/-- `to_tree` from `aider/repomap.py`: sort the tag lists and render
them as an indented tree, each tag contributing only the components
past the computed common count with its predecessor.  `none` models
the unguarded source crashes (`tags[0]` on an empty list, and the
loop-variable and indexing errors inside the walk). -/
def to_tree (tags : List (List String)) : Option String :=
  match sortTags tags with
  | [] => none
  | t0 :: rest => toTreeLoop (List.replicate t0.length (none : Option String)) (t0 :: rest)

/-- Length of the longest common prefix of two tags. -/
def commonPrefixLen : List String → List String → Nat
  | a :: as, b :: bs => if a = b then commonPrefixLen as bs + 1 else 0
  | _, _ => 0

/-- Modelled from the spec, for comparison with `to_tree`: the claimed
rendering walk emits, for each tag, exactly the components past the
longest common prefix with the immediately preceding tag, indented one
level per shared component. -/
def claimLoop : List String → List (List String) → String
  | _, [] => ""
  | prev, tag :: rest => emitTag (commonPrefixLen prev tag) tag ++ claimLoop tag rest

/-- Modelled from the spec, for comparison with `to_tree`: the claimed
tree rendering (sort, then emit unshared suffixes); the first tag has
no predecessor and is emitted in full. -/
def claimToTree (tags : List (List String)) : String :=
  match sortTags tags with
  | [] => ""
  | t0 :: rest => emitTag 0 t0 ++ claimLoop t0 rest

/-- Consecutive-pair condition along a list of tags. -/
def pairsOkB (r : List String → List String → Bool) : List (List String) → Bool
  | [] => true
  | [_] => true
  | a :: b :: rest => r a b && pairsOkB r (b :: rest)

/-- The current tag differs from the previous one at some index inside
the range the source loop scans. -/
def diffInsidePrev (a b : List String) : Bool := commonPrefixLen a b < a.length

/-- One record decoded from a line of ctags json output. -/
structure CtagsJson where
  path : String
  scope : Option String
  kind : String
  name : String
  signature : Option String

/-- The external collaborators of the repo map builder: the ctags
subprocess (`none`-free output lines or a failure covering a missing
executable, a non-zero exit or a crash), json decoding of one output
line (`none` for malformed json), `os.path.getmtime`,
`os.path.relpath` and the tokenizer. -/
structure CtagsEnv where
  runOutput : String → Except Unit (List String)
  parseJson : String → Option CtagsJson
  getmtime : String → Nat
  relpath : String → String → String
  tokenCount : String → Nat

/-- How a repo map computation can crash: an uncaught failure of the
external tool chain inside `get_tags` (subprocess error or json decode
error), or one of the unguarded indexing crashes around `to_tree`. -/
inductive MapErr where
  | toolFail
  | emptyTree
deriving DecidableEq

/-- One entry of the global `TAGS_CACHE`: the modification timestamp
observed when the tags were computed, and the tags. -/
structure CacheEntry where
  mtime : Nat
  tags : List (List String)
deriving DecidableEq

/-- The global `TAGS_CACHE` dict, keyed by filename. -/
abbrev TagsCache := List (String × CacheEntry)

/-- Dict lookup. -/
def cacheLookup : TagsCache → String → Option CacheEntry
  | [], _ => none
  | (k2, e) :: rest, k => if k2 = k then some e else cacheLookup rest k

/-- Dict update: overwrite the binding for `k`, keeping other keys. -/
def cacheInsert : TagsCache → String → CacheEntry → TagsCache
  | [], k, e => [(k, e)]
  | (k2, e2) :: rest, k, e =>
    if k2 = k then (k, e) :: rest else (k2, e2) :: cacheInsert rest k e

/-- `split_path` from the source: the relative path with a colon
appended, as a one-component tag. -/
def split_path (env : CtagsEnv) (root path : String) : List String :=
  [env.relpath path root ++ ":"]

/-- Build one tag from a decoded ctags record, as the source loop
does: relative path with colon, the scope when present, the kind, and
the name with the signature appended when present. -/
def mkTagEntry (env : CtagsEnv) (root : String) (t : CtagsJson) : List String :=
  let lastItem := match t.signature with
    | some sg => t.name ++ " " ++ sg
    | none => t.name
  (env.relpath t.path root ++ ":") ::
    ((match t.scope with
      | some sc => [sc]
      | none => []) ++ [t.kind, lastItem])

/-- Decode every ctags output line; a malformed line is the uncaught
`json.loads` exception. -/
def parseTagLines (env : CtagsEnv) (root : String) :
    List String → Except MapErr (List (List String))
  | [] => .ok []
  | l :: ls =>
    match env.parseJson l with
    | none => .error .toolFail
    | some t =>
      match parseTagLines env root ls with
      | .error e => .error e
      | .ok ts => .ok (mkTagEntry env root t :: ts)

/-- The uncached part of `get_tags`: run the ctags subprocess and
decode its output; a file producing no output contributes its own
path as single tag. -/
def computeTags (env : CtagsEnv) (root fname : String) :
    Except MapErr (List (List String)) :=
  match env.runOutput fname with
  | .error _ => .error .toolFail
  | .ok outLines =>
    if outLines.isEmpty then .ok [split_path env root fname]
    else parseTagLines env root outLines

/-- Recompute tags and overwrite the cache entry with the observed
modification timestamp and the new tags. -/
def refreshTags (env : CtagsEnv) (root : String) (cache : TagsCache) (fname : String)
    (m : Nat) : Except MapErr (List (List String) × TagsCache) :=
  match computeTags env root fname with
  | .error e => .error e
  | .ok ts => .ok (ts, cacheInsert cache fname ⟨m, ts⟩)

/-- `get_tags` from the source: return the cached tags when an entry
for the file exists and its stored timestamp equals the current
modification timestamp; otherwise recompute via the external tool and
overwrite the entry. -/
def get_tags (env : CtagsEnv) (root : String) (cache : TagsCache) (fname : String) :
    Except MapErr (List (List String) × TagsCache) :=
  let m := env.getmtime fname
  match cacheLookup cache fname with
  | some e => if e.mtime = m then .ok (e.tags, cache) else refreshTags env root cache fname m
  | none => refreshTags env root cache fname m

/-- The synthetic probe file `check_for_ctags` writes into a temporary
directory (the temporary path is opaque; only the env decides how the
tool behaves on it). -/
def probeFile : String := "hello.py"

/-- `check_for_ctags` from the source: probe `get_tags` on the
synthetic file; any failure yields `False` (tagging disabled), success
yields `True` and keeps the cache update of the probe. -/
def check_for_ctags (env : CtagsEnv) (root : String) (cache : TagsCache) :
    Bool × TagsCache :=
  match get_tags env root cache probeFile with
  | .error _ => (false, cache)
  | .ok (_, c2) => (true, c2)

/-- Does the string end with the given literal text? -/
def strEndsWith (s sfx : String) : Bool :=
  sfx.data.reverse.isPrefixOf s.data.reverse

/-- The accumulation loop of `get_tags_map`: documentation and
structured-data files contribute their own path as single tag, every
other file the tags `get_tags` yields, in file order, threading the
cache. -/
def collectTags (env : CtagsEnv) (root : String) :
    TagsCache → List String → Except MapErr (List (List String) × TagsCache)
  | cache, [] => .ok ([], cache)
  | cache, f :: fs =>
    if strEndsWith f (".md") || strEndsWith f (".json") then
      match collectTags env root cache fs with
      | .error e => .error e
      | .ok (ts, c2) => .ok (split_path env root f :: ts, c2)
    else
      match get_tags env root cache f with
      | .error e => .error e
      | .ok (ts, c2) =>
        match collectTags env root c2 fs with
        | .error e => .error e
        | .ok (ts2, c3) => .ok (ts ++ ts2, c3)

/-- `get_tags_map` from the source: collect the tags of every file,
return absent when no tags were collected, otherwise the rendered
tree. -/
def get_tags_map (env : CtagsEnv) (root : String) (cache : TagsCache)
    (filenames : List String) : Except MapErr (Option String × TagsCache) :=
  match collectTags env root cache filenames with
  | .error e => .error e
  | .ok (tags, c2) =>
    if tags.isEmpty then .ok (none, c2)
    else match to_tree tags with
      | none => .error .emptyTree
      | some s => .ok (some s, c2)

/-- `fname_to_components` from the source: split a relative path on
the separator; directory components keep a trailing separator, the
final component optionally a colon. -/
def fname_to_components (fname : String) (with_colon : Bool) : List String :=
  let pcs := splitCharAll '/' fname.data
  (pcs.dropLast.map (fun pc => pc ++ "/")) ++
    [if with_colon then pcs.getLastD ("") ++ ":" else pcs.getLastD ("")]

/-- `get_simple_files_map` from the source: the plain untagged
file-tree listing of the candidate files. -/
def get_simple_files_map (env : CtagsEnv) (root : String) (other_files : List String) :
    Option String :=
  to_tree (other_files.map (fun f => fname_to_components (env.relpath f root) false))

/-- The fallback tail of `choose_files_listing`: the plain listing is
returned unannotated when it fits the budget, otherwise absent. -/
def simpleFallback (env : CtagsEnv) (root : String) (other_files : List String)
    (cache : TagsCache) : Except MapErr (Option (String × String) × TagsCache) :=
  match get_simple_files_map env root other_files with
  | none => .error .emptyTree
  | some l => if env.tokenCount l < 2048 then .ok (some (l, ""), cache) else .ok (none, cache)

/-- `choose_files_listing` from the source: absent for no candidate
files; with tagging enabled try the tagged listing under the
2048-token budget, annotated " with selected ctags info"; otherwise
fall back to the plain listing under the same budget; otherwise
absent.  The `.emptyTree` error models the source calling
`token_count` on the `None` that `get_tags_map` returns for an empty
collection. -/
def choose_files_listing (env : CtagsEnv) (root : String) (use_ctags : Bool)
    (cache : TagsCache) (other_files : List String) :
    Except MapErr (Option (String × String) × TagsCache) :=
  if other_files.isEmpty then .ok (none, cache)
  else if use_ctags then
    match get_tags_map env root cache other_files with
    | .error e => .error e
    | .ok (none, _c2) => .error .emptyTree
    | .ok (some l, c2) =>
      if env.tokenCount l < 2048 then .ok (some (l, " with selected ctags info"), c2)
      else simpleFallback env root other_files c2
  else simpleFallback env root other_files cache

/-- Modelled from the spec: `prompts.repo_content_prefix` lives in
`aider/prompts.py`, which is not among the available sources; a
concrete format string standing in for it (its exact wording is
irrelevant to every claim). -/
def repo_content_prefix (other ctags_msg : String) : String :=
  "Here are summaries of some " ++ other ++ "files present in my git repository" ++
    ctags_msg ++ ":\n"

/-- `get_repo_map` from the source: absent when `choose_files_listing`
is absent, otherwise the chosen listing behind the prompt prefix. -/
def get_repo_map (env : CtagsEnv) (root : String) (use_ctags : Bool) (cache : TagsCache)
    (chat_files other_files : List String) : Except MapErr (Option String × TagsCache) :=
  match choose_files_listing env root use_ctags cache other_files with
  | .error e => .error e
  | .ok (none, c2) => .ok (none, c2)
  | .ok (some (l, msg), c2) =>
    let other := if chat_files.isEmpty then "" else "other "
    .ok (some ( repo_content_prefix other msg ++ l), c2)


/-- A well-formed cache entry: a non-empty tag list all of whose tags
are non-empty component lists — the shape every entry written by
`get_tags` has. -/
def wfEntry (e : CacheEntry) : Bool :=
  !e.tags.isEmpty && e.tags.all (fun t => !t.isEmpty)

/-- A cache all of whose entries are well-formed. -/
def wfCache : TagsCache → Bool
  | [] => true
  | (_, e) :: rest => wfEntry e && wfCache rest

/-- A concrete environment in which the external symbol-indexing tool
fails on every file (missing executable / non-zero exit / crash). -/
def envToolFails : CtagsEnv where
  runOutput := fun _ => .error ()
  parseJson := fun _ => none
  getmtime := fun _ => 0
  relpath := fun f _ => f
  tokenCount := fun _ => 0

/-- A concrete environment whose tokenizer charges 3000 tokens to any
listing containing a colon (every tagged listing) and 10 tokens to any
other listing: the tagged listing busts the 2048 budget, the plain one
fits. -/
def envBudget : CtagsEnv where
  runOutput := fun _ => .ok []
  parseJson := fun _ => none
  getmtime := fun _ => 0
  relpath := fun f _ => f
  tokenCount := fun s => if strContains s (":") then 3000 else 10

/-- Edit document of the round-trip test of the repository test suite
(`test_find_original_update_blocks`). -/
def roundTripDoc : String :=
  "\nHere\x27s the change:\n\n```text\nfoo.txt\n<<<<<<< ORIGINAL\nTwo\n=======\nTooooo\n>>>>>>> UPDATED\n```\n\nHope you like it!\n"

/-- Is some SEPARATOR marker line followed, strictly later, by an
UPDATED marker line?  Exactly when this fails does the parser reach
the end of input still inside a block opened here. -/
def hasCompletePair : List String → Bool
  | [] => false
  | l :: ls => (isDividerMarker l && ls.any isUpdatedMarker) || hasCompletePair ls

/-- A two-block fenced document whose second block omits its filename
line, the scenario of `test_incomplete_edit_block_missing_filename`. -/
def twoBlockOmittedFilenameDoc : String :=
  "\n```python\nfoo.txt\n<<<<<<< ORIGINAL\na\n=======\nb\n>>>>>>> UPDATED\n\n<<<<<<< ORIGINAL\nc\n=======\nd\n>>>>>>> UPDATED\n```\n"

/-! ## Theorems: fuzzy patch applier -/

theorem replaceFirstSub_of_first (part repl : List Char) :
    ∀ pre suf : List Char,
      (∀ p s : List Char, pre ++ part ++ suf = p ++ part ++ s → pre.length ≤ p.length) →
      replaceFirstSub part repl (pre ++ part ++ suf) = some (pre ++ repl ++ suf)
  | [], suf, _h => by
    cases part with
    | nil =>
      cases suf with
      | nil => simp [replaceFirstSub, List.isPrefixOf]
      | cons c cs =>
        simp only [List.nil_append, replaceFirstSub]
        rw [if_pos]
        · simp
        · exact List.isPrefixOf_iff_prefix.2 List.nil_prefix
    | cons p ps =>
      have hpre : (p :: ps).isPrefixOf ((p :: ps) ++ suf) = true :=
        List.isPrefixOf_iff_prefix.2 (List.prefix_append _ suf)
      have hdrop : List.drop (p :: ps).length ((p :: ps) ++ suf) = suf := List.drop_left _ _
      rw [List.cons_append] at hpre hdrop
      simp only [List.nil_append, List.cons_append, replaceFirstSub, List.append_eq]
      rw [if_pos hpre, hdrop]
  | c :: pre, suf, h => by
    have hnp : part.isPrefixOf (c :: (pre ++ part ++ suf)) = false := by
      cases hb : part.isPrefixOf (c :: (pre ++ part ++ suf)) with
      | false => rfl
      | true =>
        obtain ⟨t, ht⟩ := List.isPrefixOf_iff_prefix.1 hb
        have h0 := h [] t (by
          simp only [List.nil_append, List.cons_append]
          exact ht.symm)
        simp at h0
    have hrec :
        replaceFirstSub part repl (pre ++ part ++ suf) = some (pre ++ repl ++ suf) := by
      refine replaceFirstSub_of_first part repl pre suf ?_
      intro p s hps
      have := h (c :: p) s (by simp [hps])
      simpa using this
    simp only [List.cons_append, replaceFirstSub, List.append_eq, List.append_assoc]
    rw [show pre ++ (part ++ suf) = pre ++ part ++ suf by simp] at *
    rw [hnp]
    simp only [Bool.false_eq_true, if_false]
    rw [hrec]
    simp

/-- Claim C1: for every file content `whole` containing the
single-line string `original` verbatim, the applier
(`replace_most_similar_chunk`) returns `whole` with exactly the first
occurrence of `original` replaced by `updated`; everything before and
after — including later occurrences of `original` — is unchanged. -/
theorem replace_chunk_exact_first (whole part repl : String) (pre suf : List Char)
    (_hline : part.data.all (fun c => c ≠ '\n') = true)
    (hsplit : whole.data = pre ++ part.data ++ suf)
    (hfirst : ∀ p s : List Char, whole.data = p ++ part.data ++ s → pre.length ≤ p.length) :
    replace_most_similar_chunk whole part repl = some (String.mk (pre ++ repl.data ++ suf)) := by
  have hrw : replaceFirstSub part.data repl.data whole.data
      = some (pre ++ repl.data ++ suf) := by
    rw [hsplit]
    refine replaceFirstSub_of_first part.data repl.data pre suf ?_
    intro p s hps
    exact hfirst p s (by rw [hsplit, hps])
  unfold replace_most_similar_chunk
  rw [hrw]

/-- Witness for C1 at a concrete input with a later second occurrence:
in "aba", replacing "a" by "x" touches only the first "a". -/
theorem replace_chunk_exact_first_witness :
    replace_most_similar_chunk ("aba") ("a") ("x") = some ("xba") := by
  have h := replace_chunk_exact_first ("aba") ("a") ("x") [] ['b', 'a']
    (by decide) (by decide)
    (fun p s _hp => Nat.zero_le p.length)
  simpa using h

/-! ## Theorems: edit block parser -/

/-- Claim C2: parsing the well-formed single-block edit document with
filename line foo.txt, original body line Two and updated body line
Tooooo yields exactly one EditBlock, the triple of "foo.txt", "Two"
with terminator, and "Tooooo" with terminator. -/
theorem parse_single_block_roundtrip :
    find_original_update_blocks roundTripDoc
      = .ok [(("foo.txt"), ("Two\n"), ("Tooooo\n"))] := by decide

/-- Running the parser over concatenated line lists composes: the
second list starts in the state the first one ends in, and the emitted
blocks concatenate. -/
theorem runLines_append (xs : List String) :
    ∀ (ys : List String) (st : PState),
      runLines (xs ++ ys) st =
        match runLines xs st with
        | .error e => .error e
        | .ok (st1, bs) =>
          match runLines ys st1 with
          | .error e => .error e
          | .ok (st2, bs2) => .ok (st2, bs ++ bs2) := by
  induction xs with
  | nil =>
    intro ys st
    simp only [List.nil_append, runLines]
    cases runLines ys st with
    | error e => rfl
    | ok q =>
      obtain ⟨st2, bs2⟩ := q
      simp
  | cons l ls ih =>
    intro ys st
    simp only [List.cons_append, runLines]
    cases stepLine st l with
    | error e => rfl
    | ok p =>
      obtain ⟨st1, bs⟩ := p
      simp only [List.append_eq, ih ys st1]
      cases runLines ls st1 with
      | error e => rfl
      | ok q =>
        obtain ⟨st2, bs2⟩ := q
        dsimp only
        cases runLines ys st2 with
        | error e => rfl
        | ok r =>
          obtain ⟨st3, bs3⟩ := r
          simp

/-- Claim C3: whenever the parser reaches an ORIGINAL marker in
scanning state and the backward filename scan over its lookback window
fails, the whole parse fails at once with the missing-filename error
(the `Except` result carries no partial block list), whatever else
follows in the input; and the error message names the filename
condition. -/
theorem parse_missing_filename_fails (pre rest : List String) (p1 p2 : Option String)
    (bs : List EditBlock) (lOrig : String)
    (hpre : runLines pre initPState = .ok (.scan p1 p2, bs))
    (horig : isOriginalMarker lOrig = true)
    (hnofn : findFilename p1 p2 = none) :
    parseLinesAll (pre ++ lOrig :: rest) = .error missingFilenameErr ∧
      strContains missingFilenameErr ("filename") = true := by
  constructor
  · unfold parseLinesAll
    rw [runLines_append, hpre]
    simp only [runLines, stepLine, horig, if_true, hnofn]
  · decide

/-- Witness for C3 at the repository test input
(`test_find_original_update_blocks_missing_filename`): the fence line
and the blank line above it give no filename. -/
theorem parse_missing_filename_fails_witness :
    parseLinesAll (["", "Here\x27s the change:", "", "```text"] ++
        ("<<<<<<< ORIGINAL") :: ["Two", "=======", "Tooooo", "", "", "oops!"])
      = .error missingFilenameErr ∧
      strContains missingFilenameErr ("filename") = true :=
  parse_missing_filename_fails
    ["", "Here\x27s the change:", "", "```text"]
    ["Two", "=======", "Tooooo", "", "", "oops!"]
    (some ("```text")) (some ("")) [] ("<<<<<<< ORIGINAL")
    (by decide) (by decide) (by decide)

theorem runLines_inUpd_noUpdated :
    ∀ (mid : List String) (f : String) (orig upd : List String),
      mid.any isUpdatedMarker = false →
      runLines mid (.inUpd f orig upd) = .ok (.inUpd f orig (upd ++ mid), [])
  | [], f, orig, upd, _h => by simp [runLines]
  | l :: ls, f, orig, upd, h => by
    have hl : isUpdatedMarker l = false := by
      cases hb : isUpdatedMarker l with
      | false => rfl
      | true => simp [List.any, hb] at h
    have hls : ls.any isUpdatedMarker = false := by
      cases hb : ls.any isUpdatedMarker with
      | false => rfl
      | true => simp [List.any, hb] at h
    simp only [runLines, stepLine, hl, Bool.false_eq_true, if_false]
    rw [runLines_inUpd_noUpdated ls f orig (upd ++ [l]) hls]
    simp

theorem runLines_inOrig_noPair :
    ∀ (mid : List String) (f : String) (orig : List String),
      hasCompletePair mid = false →
      (∃ orig2, runLines mid (.inOrig f orig) = .ok (.inOrig f orig2, [])) ∨
      (∃ orig2 upd2, runLines mid (.inOrig f orig) = .ok (.inUpd f orig2 upd2, []))
  | [], f, orig, _h => by
    left
    exact ⟨orig, by simp [runLines]⟩
  | l :: ls, f, orig, h => by
    have hrest : hasCompletePair ls = false := by
      cases hb : hasCompletePair ls with
      | false => rfl
      | true => simp [hasCompletePair, hb] at h
    cases hd : isDividerMarker l with
    | true =>
      have hup : ls.any isUpdatedMarker = false := by
        cases hb : ls.any isUpdatedMarker with
        | false => rfl
        | true => simp [hasCompletePair, hd, hb] at h
      right
      refine ⟨orig, [] ++ ls, ?_⟩
      simp only [runLines, stepLine, hd, if_true]
      rw [runLines_inUpd_noUpdated ls f orig [] hup]
      simp
    | false =>
      have := runLines_inOrig_noPair ls f (orig ++ [l]) hrest
      cases this with
      | inl hcase =>
        obtain ⟨orig2, heq⟩ := hcase
        left
        refine ⟨orig2, ?_⟩
        simp only [runLines, stepLine, hd, Bool.false_eq_true, if_false]
        rw [heq]
        simp
      | inr hcase =>
        obtain ⟨orig2, upd2, heq⟩ := hcase
        right
        refine ⟨orig2, upd2, ?_⟩
        simp only [runLines, stepLine, hd, Bool.false_eq_true, if_false]
        rw [heq]
        simp

/-- Counterexample to C4 as stated: the repository input of
`test_find_original_update_blocks_missing_filename` has an ORIGINAL
marker that is never followed by a SEPARATOR/UPDATED pair, yet the
parse error is the missing-filename one — its message does not
identify the block as incomplete. -/
theorem parse_unterminated_counterexample :
    find_original_update_blocks
        ("\nHere\x27s the change:\n\n```text\n<<<<<<< ORIGINAL\nTwo\n=======\nTooooo\n\n\noops!\n")
      = .error missingFilenameErr ∧
      strContains missingFilenameErr ("Incomplete") = false := by decide

/-- Claim C4 (amended): whenever the parser reaches an ORIGINAL marker
in scanning state, the backward filename scan succeeds, and no
SEPARATOR marker followed later by an UPDATED marker occurs in the
remainder of the input, the whole parse fails with the error
identifying the block as incomplete (when the filename scan fails
instead, the missing-filename error of C3 takes precedence). -/
theorem parse_incomplete_block_fails (pre mid : List String) (p1 p2 : Option String)
    (bs : List EditBlock) (lOrig fname : String)
    (hpre : runLines pre initPState = .ok (.scan p1 p2, bs))
    (horig : isOriginalMarker lOrig = true)
    (hfn : findFilename p1 p2 = some fname)
    (hnopair : hasCompletePair mid = false) :
    parseLinesAll (pre ++ lOrig :: mid) = .error incompleteErr ∧
      strContains incompleteErr ("Incomplete") = true := by
  constructor
  · unfold parseLinesAll
    rw [runLines_append, hpre]
    dsimp only
    have hstep : runLines (lOrig :: mid) (.scan p1 p2) =
        runLines mid (.inOrig fname []) := by
      simp only [runLines, stepLine, horig, if_true, hfn]
      cases hr : runLines mid (.inOrig fname []) with
      | error e => rfl
      | ok q =>
        obtain ⟨st2, bs2⟩ := q
        simp
    rw [hstep]
    cases runLines_inOrig_noPair mid fname [] hnopair with
    | inl hcase =>
      obtain ⟨orig2, heq⟩ := hcase
      rw [heq]
    | inr hcase =>
      obtain ⟨orig2, upd2, heq⟩ := hcase
      rw [heq]
  · decide

/-- Witness for C4 (amended) at the repository test input
(`test_find_original_update_blocks_unclosed`). -/
theorem parse_incomplete_block_fails_witness :
    parseLinesAll (["", "Here\x27s the change:", "", "```text", "foo.txt"] ++
        ("<<<<<<< ORIGINAL") :: ["Two", "=======", "Tooooo", "", "", "oops!"])
      = .error incompleteErr ∧
      strContains incompleteErr ("Incomplete") = true :=
  parse_incomplete_block_fails
    ["", "Here\x27s the change:", "", "```text", "foo.txt"]
    ["Two", "=======", "Tooooo", "", "", "oops!"]
    (some ("foo.txt")) (some ("```text")) [] ("<<<<<<< ORIGINAL") ("foo.txt")
    (by decide) (by decide) (by decide) (by decide)

/-- Counterexample to C5 as stated: on a fenced document whose second
marker block omits its filename line, the parser does not inherit the
first block filename and yield two blocks — it fails. -/
theorem parse_no_inheritance_counterexample :
    find_original_update_blocks twoBlockOmittedFilenameDoc = .error missingFilenameErr := by
  decide

/-- Claim C5 (amended): a subsequent marker block that omits its
filename line makes the whole parse fail with the missing-filename
error (no filename inheritance), as the repository test
`test_incomplete_edit_block_missing_filename` asserts. -/
theorem parse_omitted_filename_fails :
    find_original_update_blocks twoBlockOmittedFilenameDoc = .error missingFilenameErr ∧
      strContains missingFilenameErr ("missing filename") = true := by decide

/-! ## Theorems: repo map builder -/

theorem cacheLookup_cacheInsert (c : TagsCache) (k : String) (v : CacheEntry) :
    cacheLookup (cacheInsert c k v) k = some v := by
  induction c with
  | nil => simp [cacheInsert, cacheLookup]
  | cons p rest ih =>
    obtain ⟨k2, e2⟩ := p
    by_cases h : k2 = k
    · simp [cacheInsert, h, cacheLookup]
    · simp [cacheInsert, h, cacheLookup, ih]

/-- Claim C8: the cached tag list is returned exactly when an entry
for the path exists whose stored timestamp equals the current
modification timestamp (conjunct 1, with the cache unchanged); on
absence or timestamp mismatch the tags are recomputed via the external
tool and the entry is overwritten with the observed timestamp and the
new tags (conjunct 2); after every successful call the entry holds the
timestamp observed at that call together with the returned tags
(conjunct 3). -/
theorem get_tags_cache_invariant (env : CtagsEnv) (root : String) (cache : TagsCache)
    (fname : String) :
    (∀ e : CacheEntry, cacheLookup cache fname = some e → e.mtime = env.getmtime fname →
        get_tags env root cache fname = .ok (e.tags, cache)) ∧
    ((∀ e : CacheEntry, cacheLookup cache fname = some e → e.mtime ≠ env.getmtime fname) →
        get_tags env root cache fname =
          match computeTags env root fname with
          | .error er => .error er
          | .ok ts => .ok (ts, cacheInsert cache fname ⟨env.getmtime fname, ts⟩)) ∧
    (∀ (ts : List (List String)) (c2 : TagsCache),
        get_tags env root cache fname = .ok (ts, c2) →
        cacheLookup c2 fname = some ⟨env.getmtime fname, ts⟩) := by
  refine ⟨?_, ?_, ?_⟩
  · intro e he hm
    simp [get_tags, he, hm]
  · intro hmiss
    unfold get_tags
    cases hl : cacheLookup cache fname with
    | none => simp [refreshTags]
    | some e =>
      have hne := hmiss e hl
      simp only [if_neg hne]
      simp [refreshTags]
  · intro ts c2 hok
    unfold get_tags at hok
    cases hl : cacheLookup cache fname with
    | some e =>
      rw [hl] at hok
      dsimp only at hok
      by_cases hm : e.mtime = env.getmtime fname
      · rw [if_pos hm] at hok
        have hts : e.tags = ts ∧ cache = c2 := by
          cases hok
          exact ⟨rfl, rfl⟩
        obtain ⟨hts1, hts2⟩ := hts
        rw [← hts2, hl]
        cases e with
        | mk m0 t0 =>
          simp only at hts1 hm
          rw [hts1, hm]
      · rw [if_neg hm] at hok
        unfold refreshTags at hok
        cases hc : computeTags env root fname with
        | error er => rw [hc] at hok; cases hok
        | ok ts2 =>
          rw [hc] at hok
          have hts : ts2 = ts ∧ cacheInsert cache fname ⟨env.getmtime fname, ts2⟩ = c2 := by
            cases hok
            exact ⟨rfl, rfl⟩
          obtain ⟨hts1, hts2⟩ := hts
          rw [← hts2, ← hts1]
          exact cacheLookup_cacheInsert cache fname _
    | none =>
      rw [hl] at hok
      dsimp only at hok
      unfold refreshTags at hok
      cases hc : computeTags env root fname with
      | error er => rw [hc] at hok; cases hok
      | ok ts2 =>
        rw [hc] at hok
        have hts : ts2 = ts ∧ cacheInsert cache fname ⟨env.getmtime fname, ts2⟩ = c2 := by
          cases hok
          exact ⟨rfl, rfl⟩
        obtain ⟨hts1, hts2⟩ := hts
        rw [← hts2, ← hts1]
        exact cacheLookup_cacheInsert cache fname _

/-- Witness for C8 at a concrete cache hit: a stored entry with the
current timestamp is returned unchanged. -/
theorem get_tags_cache_invariant_witness :
    get_tags envBudget ("") [(("a.py"), ⟨0, [["a.py:"]]⟩)] ("a.py")
      = .ok ([["a.py:"]], [(("a.py"), ⟨0, [["a.py:"]]⟩)]) :=
  (get_tags_cache_invariant envBudget ("") [(("a.py"), ⟨0, [["a.py:"]]⟩)] ("a.py")).1
    ⟨0, [["a.py:"]]⟩ (by decide) rfl

/-- Counterexample to C6 as stated: with tagging enabled (as the
`--ctags true` flag forces), a failure of the external tool while
extracting tags for a candidate file propagates out of
`choose_files_listing` — building the map raises instead of falling
back to the plain listing. -/
theorem map_build_tool_failure_raises :
    choose_files_listing envToolFails ("") true [] [("f.py")] = .error .toolFail := by
  decide

/-- Claim C6 (amended): every failure of the external tool at the
startup probe is caught and merely disables tagging
(`check_for_ctags` returns false and leaves the cache alone, never
raising); but a tool failure during per-file tag extraction while
building the map is not caught and propagates out of
`get_repo_map`. -/
theorem ctags_failure_handling :
    (∀ (env : CtagsEnv) (root : String) (cache : TagsCache) (er : MapErr),
        get_tags env root cache probeFile = .error er →
        check_for_ctags env root cache = (false, cache)) ∧
    get_repo_map envToolFails ("") true [] [] [("f.py")] = .error .toolFail := by
  constructor
  · intro env root cache er h
    unfold check_for_ctags
    rw [h]
  · decide

/-- Witness for C6 (amended) in the always-failing environment: the
probe failure yields tagging-disabled without touching the cache. -/
theorem ctags_failure_handling_witness :
    check_for_ctags envToolFails ("") [] = (false, []) :=
  (ctags_failure_handling).1 envToolFails ("") [] .toolFail (by decide)

/-- Claim C7: with tagging enabled, a non-empty candidate set, and the
tagged listing not strictly below the 2048-token budget,
`choose_files_listing` returns the plain untagged listing when that
one is strictly below the budget, and absent (never a truncated
listing) when the plain listing also reaches the budget. -/
theorem choose_listing_budget_fallback (env : CtagsEnv) (root : String) (cache : TagsCache)
    (other_files : List String) (tagged : String) (c2 : TagsCache) (plain : String)
    (hne : other_files ≠ [])
    (htm : get_tags_map env root cache other_files = .ok (some tagged, c2))
    (hbig : 2048 ≤ env.tokenCount tagged)
    (hplain : get_simple_files_map env root other_files = some plain) :
    (env.tokenCount plain < 2048 →
        choose_files_listing env root true cache other_files = .ok (some (plain, ""), c2)) ∧
    (2048 ≤ env.tokenCount plain →
        choose_files_listing env root true cache other_files = .ok (none, c2)) := by
  have hisEmpty : other_files.isEmpty = false := by
    cases other_files with
    | nil => exact absurd rfl hne
    | cons a l => rfl
  have hnotlt : ¬ env.tokenCount tagged < 2048 := Nat.not_lt.mpr hbig
  constructor
  · intro hsmall
    unfold choose_files_listing
    simp only [hisEmpty, Bool.false_eq_true, if_false, if_true, htm]
    rw [if_neg hnotlt]
    unfold simpleFallback
    rw [hplain]
    dsimp only
    rw [if_pos hsmall]
  · intro hbigp
    unfold choose_files_listing
    simp only [hisEmpty, Bool.false_eq_true, if_false, if_true, htm]
    rw [if_neg hnotlt]
    unfold simpleFallback
    rw [hplain]
    dsimp only
    rw [if_neg (Nat.not_lt.mpr hbigp)]

/-- Witness for C7 in the budget environment: one documentation file
whose tagged listing costs 3000 tokens and whose plain listing costs
10; the plain listing is returned unannotated. -/
theorem choose_listing_budget_fallback_witness :
    choose_files_listing envBudget ("") true [] [("a.md")]
      = .ok (some (("a.md\n"), ("")), []) :=
  (choose_listing_budget_fallback envBudget ("") [] [("a.md")] ("a.md:\n") [] ("a.md\n")
    (by decide) (by decide) (by decide) (by decide)).1 (by decide)

theorem strLtChars_irrefl : ∀ l : List Char, strLtChars l l = false
  | [] => rfl
  | a :: as => by simp [strLtChars, Nat.lt_irrefl, strLtChars_irrefl as]

theorem strLtB_irrefl (s : String) : strLtB s s = false := strLtChars_irrefl s.data

theorem tagLe_refl_cons (x : String) (as bs : List String) :
    tagLe (x :: as) (x :: bs) = tagLe as bs := by
  simp [tagLe, strLtB_irrefl]

theorem tagLe_total : ∀ a b : List String, tagLe a b = true ∨ tagLe b a = true
  | [], _ => Or.inl rfl
  | _ :: _, [] => Or.inr rfl
  | a :: as, b :: bs => by
    cases h1 : strLtB a b with
    | true => exact Or.inl (by simp [tagLe, h1])
    | false =>
      cases h2 : strLtB b a with
      | true => exact Or.inr (by simp [tagLe, h2])
      | false =>
        cases tagLe_total as bs with
        | inl h => exact Or.inl (by simp [tagLe, h1, h2, h])
        | inr h => exact Or.inr (by simp [tagLe, h1, h2, h])

theorem length_insertSorted (t : List String) :
    ∀ l, (insertSorted t l).length = l.length + 1
  | [] => rfl
  | h :: hs => by
    by_cases c : tagLe t h = true
    · simp [insertSorted, c]
    · simp [insertSorted, c, length_insertSorted t hs]

theorem length_sortTags : ∀ l, (sortTags l).length = l.length
  | [] => rfl
  | t :: ts => by simp [sortTags, length_insertSorted, length_sortTags ts]

theorem mem_insertSorted (t : List String) :
    ∀ (l : List (List String)) (x : List String),
      x ∈ insertSorted t l ↔ x = t ∨ x ∈ l
  | [], x => by simp [insertSorted]
  | h :: hs, x => by
    by_cases c : tagLe t h = true
    · simp only [insertSorted, if_pos c, List.mem_cons]
    · simp only [insertSorted, if_neg c, List.mem_cons, mem_insertSorted t hs x]
      tauto

theorem mem_sortTags : ∀ (l : List (List String)) (x : List String),
    x ∈ sortTags l ↔ x ∈ l
  | [], x => by simp [sortTags]
  | t :: ts, x => by
    simp only [sortTags, mem_insertSorted, mem_sortTags ts x, List.mem_cons]

theorem pairsOkB_cons_iff (r : List String → List String → Bool) (a : List String)
    (l : List (List String)) :
    pairsOkB r (a :: l) = true ↔
      (∀ b, l.head? = some b → r a b = true) ∧ pairsOkB r l = true := by
  cases l with
  | nil => simp [pairsOkB]
  | cons b bs =>
    simp only [pairsOkB, Bool.and_eq_true, List.head?_cons]
    constructor
    · rintro ⟨h1, h2⟩
      exact ⟨fun b2 hb2 => by cases hb2; exact h1, h2⟩
    · rintro ⟨h1, h2⟩
      exact ⟨h1 b rfl, h2⟩

theorem insertSorted_shape (t : List String) :
    ∀ l, insertSorted t l = t :: l ∨
      ∃ h hs, l = h :: hs ∧ insertSorted t l = h :: insertSorted t hs ∧ tagLe t h = false
  | [] => Or.inl rfl
  | h :: hs => by
    by_cases c : tagLe t h = true
    · left
      simp [insertSorted, c]
    · right
      refine ⟨h, hs, rfl, by simp [insertSorted, c], ?_⟩
      cases hb : tagLe t h with
      | true => exact absurd hb c
      | false => rfl

theorem pairsOkB_insertSorted (t : List String) :
    ∀ l, pairsOkB tagLe l = true → pairsOkB tagLe (insertSorted t l) = true
  | [], _ => by simp [insertSorted, pairsOkB]
  | h :: hs, hok => by
    by_cases c : tagLe t h = true
    · simp only [insertSorted, if_pos c]
      refine (pairsOkB_cons_iff _ _ _).2 ⟨?_, hok⟩
      intro b hb
      cases hb
      exact c
    · have hht : tagLe h t = true := by
        cases tagLe_total t h with
        | inl hl => exact absurd hl c
        | inr hr => exact hr
      have hparts := (pairsOkB_cons_iff _ _ _).1 hok
      simp only [insertSorted, if_neg c]
      refine (pairsOkB_cons_iff _ _ _).2
        ⟨?_, pairsOkB_insertSorted t hs hparts.2⟩
      intro b hb
      cases insertSorted_shape t hs with
      | inl heq =>
        rw [heq, List.head?_cons] at hb
        cases hb
        exact hht
      | inr hex =>
        obtain ⟨h2, hs2, hhs2, heq, _⟩ := hex
        rw [heq, List.head?_cons] at hb
        have hb2 : b = h2 := by
          injection hb with hb1
          exact hb1.symm
        subst hb2
        exact hparts.1 b (by rw [hhs2]; rfl)

theorem pairsOkB_sortTags : ∀ l, pairsOkB tagLe (sortTags l) = true
  | [] => rfl
  | t :: ts => pairsOkB_insertSorted t (sortTags ts) (pairsOkB_sortTags ts)

theorem findBreak_some_of_le : ∀ (prev t : List String), prev ≠ [] → t ≠ [] →
    tagLe prev t = true → ∃ k, findBreak (prev.map some) t = some k
  | [], _, h, _, _ => absurd rfl h
  | _ :: _, [], _, h, _ => absurd rfl h
  | [_p], _t0 :: _ts, _, _, _ => ⟨0, rfl⟩
  | p :: p2 :: ps, t0 :: ts, _, _, hle => by
    by_cases hpt : p = t0
    · subst hpt
      rw [tagLe_refl_cons] at hle
      cases ts with
      | nil => exact absurd hle (by simp [tagLe])
      | cons t2 ts2 =>
        obtain ⟨k, hk⟩ :=
          findBreak_some_of_le (p2 :: ps) (t2 :: ts2) (by simp) (by simp) hle
        refine ⟨k + 1, ?_⟩
        simp only [List.map, findBreak, if_pos rfl]
        rw [List.map] at hk
        rw [hk]
        rfl
    · refine ⟨0, ?_⟩
      simp only [List.map, findBreak]
      rw [if_neg (by simp [hpt])]

theorem toTreeLoop_ok : ∀ (rest : List (List String)) (prev : List String),
    prev ≠ [] → (∀ t ∈ rest, t ≠ []) → pairsOkB tagLe (prev :: rest) = true →
    ∃ s, toTreeLoop (prev.map some) rest = some s
  | [], _prev, _, _, _ => ⟨"", rfl⟩
  | t :: ts, prev, hprev, hall, hpair => by
    have h1 : tagLe prev t = true := ((pairsOkB_cons_iff _ _ _).1 hpair).1 t rfl
    have h2 : pairsOkB tagLe (t :: ts) = true := ((pairsOkB_cons_iff _ _ _).1 hpair).2
    have hts : t ≠ [] := hall t (by simp)
    obtain ⟨k, hk⟩ := findBreak_some_of_le prev t hprev hts h1
    obtain ⟨s, hs⟩ := toTreeLoop_ok ts t hts (fun x hx => hall x (by simp [hx])) h2
    exact ⟨emitTag k t ++ s, by simp [toTreeLoop, hk, hs]⟩

theorem findBreak_replicate (n : Nat) (c : String) (cs : List String) :
    findBreak (List.replicate (n + 1) (none : Option String)) (c :: cs) = some 0 := by
  cases n with
  | zero => rfl
  | succ m => rfl

theorem findBreak_eq_commonPrefixLen : ∀ (prev t : List String), prev ≠ [] → t ≠ [] →
    tagLe prev t = true → commonPrefixLen prev t < prev.length →
    findBreak (prev.map some) t = some (commonPrefixLen prev t)
  | [], _, h, _, _, _ => absurd rfl h
  | _ :: _, [], _, h, _, _ => absurd rfl h
  | [p], t0 :: ts, _, _, _, hlt => by
    have h0 : commonPrefixLen [p] (t0 :: ts) = 0 := Nat.lt_one_iff.1 hlt
    rw [h0]
    rfl
  | p :: p2 :: ps, t0 :: ts, _, _, hle, hlt => by
    by_cases hpt : p = t0
    · subst hpt
      rw [tagLe_refl_cons] at hle
      have hcpl : commonPrefixLen (p :: p2 :: ps) (p :: ts) =
          commonPrefixLen (p2 :: ps) ts + 1 := by simp [commonPrefixLen]
      rw [hcpl] at hlt ⊢
      have hlt2 : commonPrefixLen (p2 :: ps) ts < (p2 :: ps).length := by
        simpa [List.length] using Nat.lt_of_succ_lt_succ hlt
      cases ts with
      | nil => exact absurd hle (by simp [tagLe])
      | cons t2 ts2 =>
        have hrec := findBreak_eq_commonPrefixLen (p2 :: ps) (t2 :: ts2)
          (by simp) (by simp) hle hlt2
        simp only [List.map, findBreak, if_pos rfl]
        rw [List.map] at hrec
        rw [hrec]
        rfl
    · have hcpl : commonPrefixLen (p :: p2 :: ps) (t0 :: ts) = 0 := by
        simp [commonPrefixLen, hpt]
      rw [hcpl]
      simp only [List.map, findBreak]
      rw [if_neg (by simp [hpt])]

theorem toTreeLoop_eq_claimLoop : ∀ (rest : List (List String)) (prev : List String),
    prev ≠ [] → (∀ t ∈ rest, t ≠ []) →
    pairsOkB tagLe (prev :: rest) = true →
    pairsOkB diffInsidePrev (prev :: rest) = true →
    toTreeLoop (prev.map some) rest = some (claimLoop prev rest)
  | [], _prev, _, _, _, _ => rfl
  | t :: ts, prev, hprev, hall, hle, hdiff => by
    have h1 : tagLe prev t = true := ((pairsOkB_cons_iff _ _ _).1 hle).1 t rfl
    have h2 : pairsOkB tagLe (t :: ts) = true := ((pairsOkB_cons_iff _ _ _).1 hle).2
    have hd1 : diffInsidePrev prev t = true := ((pairsOkB_cons_iff _ _ _).1 hdiff).1 t rfl
    have hd2 : pairsOkB diffInsidePrev (t :: ts) = true :=
      ((pairsOkB_cons_iff _ _ _).1 hdiff).2
    have hts : t ≠ [] := hall t (by simp)
    have hlt : commonPrefixLen prev t < prev.length := by
      simpa [diffInsidePrev] using hd1
    have hfb := findBreak_eq_commonPrefixLen prev t hprev hts h1 hlt
    have hrec := toTreeLoop_eq_claimLoop ts t hts (fun x hx => hall x (by simp [hx])) h2 hd2
    simp [toTreeLoop, hfb, hrec, claimLoop]

/-- Counterexample to C9 as stated: on the non-empty list of non-empty
tag lists where the second tag extends the first, the source loop
falls through with the stale index (num_common is the first-differing
index only when one exists inside the range), so `to_tree` re-emits
the shared component, while the claimed suffix-only rendering does
not. -/
theorem to_tree_shared_component_counterexample :
    to_tree [["a"], ["a", "b"]] = some ("a\na\n\tb\n") ∧
      claimToTree [["a"], ["a", "b"]] = "a\n\tb\n" ∧
      some ("a\na\n\tb\n") ≠ some ("a\n\tb\n") := by decide

/-- Claim C9 (amended): for every non-empty list of non-empty tag
lists in which, after sorting, each consecutive pair differs at some
component index inside the range the loop scans (an index smaller than
the earlier tag length), `to_tree` sorts lexicographically and emits
for each tag exactly the suffix past the common prefix with its
predecessor, with the claimed indentation — and in particular the
rendering of a/ b.py: and a/ c.py: collapses the shared prefix. -/
theorem to_tree_matches_claimed_rendering (tags : List (List String))
    (hne : tags ≠ []) (hallne : ∀ t ∈ tags, t ≠ [])
    (hdiff : pairsOkB diffInsidePrev (sortTags tags) = true) :
    to_tree tags = some (claimToTree tags) ∧
      to_tree [["a/", "b.py:"], ["a/", "c.py:"]] = some ("a/\n\tb.py:\n\tc.py:\n") := by
  constructor
  · unfold to_tree claimToTree
    cases hs : sortTags tags with
    | nil =>
      exfalso
      have hlen := length_sortTags tags
      rw [hs] at hlen
      cases htags : tags with
      | nil => exact hne htags
      | cons a l =>
        rw [htags] at hlen
        simp at hlen
    | cons t0 rest =>
      have ht0 : t0 ≠ [] := by
        have hmem : t0 ∈ tags := (mem_sortTags tags t0).1 (by rw [hs]; simp)
        exact hallne t0 hmem
      have hrest : ∀ t ∈ rest, t ≠ [] := by
        intro t ht
        exact hallne t ((mem_sortTags tags t).1 (by rw [hs]; simp [ht]))
      have hle : pairsOkB tagLe (t0 :: rest) = true := by
        have hsort := pairsOkB_sortTags tags
        rw [hs] at hsort
        exact hsort
      have hd : pairsOkB diffInsidePrev (t0 :: rest) = true := by
        rw [hs] at hdiff
        exact hdiff
      have hloop := toTreeLoop_eq_claimLoop rest t0 ht0 hrest hle hd
      cases ht00 : t0 with
      | nil => exact absurd ht00 ht0
      | cons c cs =>
        rw [ht00] at hloop
        have hfb : findBreak (List.replicate (c :: cs).length (none : Option String))
            (c :: cs) = some 0 := findBreak_replicate cs.length c cs
        simp only [toTreeLoop, hfb, hloop]
  · decide

/-- Witness for C9 (amended) at the claimed example pair of tag
lists. -/
theorem to_tree_matches_claimed_rendering_witness :
    to_tree [["a/", "b.py:"], ["a/", "c.py:"]]
      = some (claimToTree [["a/", "b.py:"], ["a/", "c.py:"]]) :=
  (to_tree_matches_claimed_rendering [["a/", "b.py:"], ["a/", "c.py:"]]
    (by decide) (by decide) (by decide)).1

theorem to_tree_ok (tags : List (List String)) (hne : tags ≠ [])
    (hallne : ∀ t ∈ tags, t ≠ []) : ∃ s, to_tree tags = some s := by
  unfold to_tree
  cases hs : sortTags tags with
  | nil =>
    exfalso
    have hlen := length_sortTags tags
    rw [hs] at hlen
    cases htags : tags with
    | nil => exact hne htags
    | cons a l =>
      rw [htags] at hlen
      simp at hlen
  | cons t0 rest =>
    have ht0 : t0 ∈ tags := (mem_sortTags tags t0).1 (by rw [hs]; simp)
    have ht0ne : t0 ≠ [] := hallne t0 ht0
    have hrest : ∀ t ∈ rest, t ≠ [] := by
      intro t ht
      exact hallne t ((mem_sortTags tags t).1 (by rw [hs]; simp [ht]))
    have hle : pairsOkB tagLe (t0 :: rest) = true := by
      have hsort := pairsOkB_sortTags tags
      rw [hs] at hsort
      exact hsort
    obtain ⟨s, hloop⟩ := toTreeLoop_ok rest t0 ht0ne hrest hle
    cases ht00 : t0 with
    | nil => exact absurd ht00 ht0ne
    | cons c cs =>
      rw [ht00] at hloop
      have hfb : findBreak (List.replicate (c :: cs).length (none : Option String))
          (c :: cs) = some 0 := findBreak_replicate cs.length c cs
      refine ⟨emitTag 0 (c :: cs) ++ s, ?_⟩
      simp only [toTreeLoop, hfb, hloop]

theorem parseTagLines_ok_props (env : CtagsEnv) (root : String) :
    ∀ (ls : List String) (ts : List (List String)),
      parseTagLines env root ls = .ok ts → ts.length = ls.length ∧ ∀ t ∈ ts, t ≠ []
  | [], ts, h => by
    have hts : ts = [] := by
      cases h
      rfl
    subst hts
    exact ⟨rfl, by simp⟩
  | l :: ls, ts, h => by
    unfold parseTagLines at h
    cases hp : env.parseJson l with
    | none =>
      rw [hp] at h
      cases h
    | some tj =>
      rw [hp] at h
      cases hr : parseTagLines env root ls with
      | error e =>
        rw [hr] at h
        cases h
      | ok ts2 =>
        rw [hr] at h
        have hts : ts = mkTagEntry env root tj :: ts2 := by
          cases h
          rfl
        subst hts
        obtain ⟨hlen, hall⟩ := parseTagLines_ok_props env root ls ts2 hr
        refine ⟨by simp [hlen], ?_⟩
        intro t ht
        cases List.mem_cons.1 ht with
        | inl heq =>
          subst heq
          simp [mkTagEntry]
        | inr hmem => exact hall t hmem

theorem computeTags_ok_props (env : CtagsEnv) (root f : String)
    (ts : List (List String)) (h : computeTags env root f = .ok ts) :
    ts ≠ [] ∧ ∀ t ∈ ts, t ≠ [] := by
  unfold computeTags at h
  cases hr : env.runOutput f with
  | error e =>
    rw [hr] at h
    cases h
  | ok outLines =>
    rw [hr] at h
    dsimp only at h
    by_cases he : outLines.isEmpty = true
    · rw [if_pos he] at h
      have hts : ts = [split_path env root f] := by
        cases h
        rfl
      subst hts
      refine ⟨by simp, ?_⟩
      intro t ht
      cases List.mem_singleton.1 ht
      simp [split_path]
    · rw [if_neg he] at h
      obtain ⟨hlen, hall⟩ := parseTagLines_ok_props env root outLines ts h
      refine ⟨?_, hall⟩
      intro hts
      rw [hts] at hlen
      cases houtl : outLines with
      | nil => exact he (by rw [houtl]; rfl)
      | cons a l =>
        rw [houtl] at hlen
        simp at hlen

theorem get_tags_error_toolFail (env : CtagsEnv) (root : String) (cache : TagsCache)
    (f : String) (e : MapErr) (h : get_tags env root cache f = .error e) :
    e = .toolFail := by
  unfold get_tags refreshTags at h
  have hcompute : ∀ e2 : MapErr, computeTags env root f = .error e2 → e2 = .toolFail := by
    intro e2 h2
    unfold computeTags at h2
    cases hr : env.runOutput f with
    | error u =>
      rw [hr] at h2
      cases h2
      rfl
    | ok outLines =>
      rw [hr] at h2
      dsimp only at h2
      by_cases he : outLines.isEmpty = true
      · rw [if_pos he] at h2
        cases h2
      · rw [if_neg he] at h2
        clear hr he
        induction outLines with
        | nil =>
          rw [parseTagLines] at h2
          cases h2
        | cons l ls ih =>
          rw [parseTagLines] at h2
          cases hp : env.parseJson l with
          | none =>
            rw [hp] at h2
            cases h2
            rfl
          | some tj =>
            rw [hp] at h2
            cases hr2 : parseTagLines env root ls with
            | error e3 =>
              rw [hr2] at h2
              cases h2
              exact ih hr2
            | ok ts2 =>
              rw [hr2] at h2
              cases h2
  cases hl : cacheLookup cache f with
  | none =>
    rw [hl] at h
    dsimp only at h
    cases hc : computeTags env root f with
    | error e2 =>
      rw [hc] at h
      cases h
      exact hcompute e hc
    | ok ts =>
      rw [hc] at h
      cases h
  | some entry =>
    rw [hl] at h
    dsimp only at h
    by_cases hm : entry.mtime = env.getmtime f
    · rw [if_pos hm] at h
      cases h
    · rw [if_neg hm] at h
      cases hc : computeTags env root f with
      | error e2 =>
        rw [hc] at h
        cases h
        exact hcompute e hc
      | ok ts =>
        rw [hc] at h
        cases h

theorem wfEntry_iff (e : CacheEntry) :
    wfEntry e = true ↔ e.tags ≠ [] ∧ ∀ t ∈ e.tags, t ≠ [] := by
  cases e with
  | mk m ts =>
    simp only [wfEntry, Bool.and_eq_true, Bool.not_eq_true', List.all_eq_true]
    constructor
    · rintro ⟨h1, h2⟩
      refine ⟨by simpa [List.isEmpty_iff] using h1, ?_⟩
      intro t ht
      have := h2 t ht
      simpa [List.isEmpty_iff] using this
    · rintro ⟨h1, h2⟩
      refine ⟨by simpa [List.isEmpty_iff] using h1, ?_⟩
      intro t ht
      have := h2 t ht
      simpa [List.isEmpty_iff] using this

theorem wfCache_lookup : ∀ (c : TagsCache) (k : String) (e : CacheEntry),
    wfCache c = true → cacheLookup c k = some e → wfEntry e = true
  | [], _, _, _, h => by cases h
  | (k2, e2) :: rest, k, e, hwf, hl => by
    have hparts : wfEntry e2 = true ∧ wfCache rest = true := by
      simpa [wfCache, Bool.and_eq_true] using hwf
    by_cases hk : k2 = k
    · rw [cacheLookup, if_pos hk] at hl
      cases hl
      exact hparts.1
    · rw [cacheLookup, if_neg hk] at hl
      exact wfCache_lookup rest k e hparts.2 hl

theorem wfCache_insert : ∀ (c : TagsCache) (k : String) (e : CacheEntry),
    wfCache c = true → wfEntry e = true → wfCache (cacheInsert c k e) = true
  | [], k, e, _, hwe => by simp [cacheInsert, wfCache, hwe]
  | (k2, e2) :: rest, k, e, hwf, hwe => by
    have hparts : wfEntry e2 = true ∧ wfCache rest = true := by
      simpa [wfCache, Bool.and_eq_true] using hwf
    by_cases hk : k2 = k
    · rw [cacheInsert, if_pos hk]
      simp [wfCache, hwe, hparts.1, hparts.2]
    · rw [cacheInsert, if_neg hk]
      simp [wfCache, hparts.1, wfCache_insert rest k e hparts.2 hwe]

theorem get_tags_wf (env : CtagsEnv) (root : String) (cache : TagsCache) (f : String)
    (ts : List (List String)) (c2 : TagsCache)
    (hwf : wfCache cache = true) (h : get_tags env root cache f = .ok (ts, c2)) :
    (ts ≠ [] ∧ ∀ t ∈ ts, t ≠ []) ∧ wfCache c2 = true := by
  unfold get_tags refreshTags at h
  cases hl : cacheLookup cache f with
  | some entry =>
    rw [hl] at h
    dsimp only at h
    by_cases hm : entry.mtime = env.getmtime f
    · rw [if_pos hm] at h
      have hts : entry.tags = ts ∧ cache = c2 := by
        cases h
        exact ⟨rfl, rfl⟩
      obtain ⟨h1, h2⟩ := hts
      have hwe := wfCache_lookup cache f entry hwf hl
      rw [← h2, ← h1]
      exact ⟨((wfEntry_iff entry).1 hwe), hwf⟩
    · rw [if_neg hm] at h
      cases hc : computeTags env root f with
      | error e2 =>
        rw [hc] at h
        cases h
      | ok ts2 =>
        rw [hc] at h
        have hts : ts2 = ts ∧ cacheInsert cache f ⟨env.getmtime f, ts2⟩ = c2 := by
          cases h
          exact ⟨rfl, rfl⟩
        obtain ⟨h1, h2⟩ := hts
        subst h1
        have hprops := computeTags_ok_props env root f ts2 hc
        rw [← h2]
        refine ⟨hprops, wfCache_insert cache f _ hwf ?_⟩
        exact (wfEntry_iff _).2 hprops
  | none =>
    rw [hl] at h
    dsimp only at h
    cases hc : computeTags env root f with
    | error e2 =>
      rw [hc] at h
      cases h
    | ok ts2 =>
      rw [hc] at h
      have hts : ts2 = ts ∧ cacheInsert cache f ⟨env.getmtime f, ts2⟩ = c2 := by
        cases h
        exact ⟨rfl, rfl⟩
      obtain ⟨h1, h2⟩ := hts
      subst h1
      have hprops := computeTags_ok_props env root f ts2 hc
      rw [← h2]
      refine ⟨hprops, wfCache_insert cache f _ hwf ?_⟩
      exact (wfEntry_iff _).2 hprops

theorem collectTags_wf (env : CtagsEnv) (root : String) :
    ∀ (files : List String) (cache : TagsCache) (tags : List (List String))
      (c2 : TagsCache), wfCache cache = true →
      collectTags env root cache files = .ok (tags, c2) →
      (∀ t ∈ tags, t ≠ []) ∧ wfCache c2 = true ∧ (files ≠ [] → tags ≠ [])
  | [], cache, tags, c2, hwf, h => by
    have hts : tags = [] ∧ cache = c2 := by
      cases h
      exact ⟨rfl, rfl⟩
    obtain ⟨h1, h2⟩ := hts
    subst h1
    rw [← h2]
    exact ⟨by simp, hwf, fun hne => absurd rfl hne⟩
  | f :: fs, cache, tags, c2, hwf, h => by
    unfold collectTags at h
    by_cases hmd : (strEndsWith f (".md") || strEndsWith f (".json")) = true
    · rw [if_pos hmd] at h
      cases hr : collectTags env root cache fs with
      | error e =>
        rw [hr] at h
        cases h
      | ok p =>
        obtain ⟨ts2, c3⟩ := p
        rw [hr] at h
        have hts : split_path env root f :: ts2 = tags ∧ c3 = c2 := by
          cases h
          exact ⟨rfl, rfl⟩
        obtain ⟨h1, h2⟩ := hts
        obtain ⟨ih1, ih2, _⟩ := collectTags_wf env root fs cache ts2 c3 hwf hr
        rw [← h1, ← h2]
        refine ⟨?_, ih2, fun _ => by simp⟩
        intro t ht
        cases List.mem_cons.1 ht with
        | inl heq =>
          subst heq
          simp [split_path]
        | inr hmem => exact ih1 t hmem
    · rw [if_neg hmd] at h
      cases hg : get_tags env root cache f with
      | error e =>
        rw [hg] at h
        cases h
      | ok p =>
        obtain ⟨ts1, c1⟩ := p
        rw [hg] at h
        dsimp only at h
        obtain ⟨⟨hne1, hall1⟩, hwf1⟩ := get_tags_wf env root cache f ts1 c1 hwf hg
        cases hr : collectTags env root c1 fs with
        | error e =>
          rw [hr] at h
          cases h
        | ok q =>
          obtain ⟨ts2, c3⟩ := q
          rw [hr] at h
          have hts : ts1 ++ ts2 = tags ∧ c3 = c2 := by
            cases h
            exact ⟨rfl, rfl⟩
          obtain ⟨h1, h2⟩ := hts
          obtain ⟨ih1, ih2, _⟩ := collectTags_wf env root fs c1 ts2 c3 hwf1 hr
          rw [← h1, ← h2]
          refine ⟨?_, ih2, fun _ => by simp [hne1]⟩
          intro t ht
          cases List.mem_append.1 ht with
          | inl hmem => exact hall1 t hmem
          | inr hmem => exact ih1 t hmem

theorem collectTags_error_toolFail (env : CtagsEnv) (root : String) :
    ∀ (files : List String) (cache : TagsCache) (e : MapErr),
      collectTags env root cache files = .error e → e = .toolFail
  | [], _, _, h => by cases h
  | f :: fs, cache, e, h => by
    unfold collectTags at h
    by_cases hmd : (strEndsWith f (".md") || strEndsWith f (".json")) = true
    · rw [if_pos hmd] at h
      cases hr : collectTags env root cache fs with
      | error e2 =>
        rw [hr] at h
        cases h
        exact collectTags_error_toolFail env root fs cache e hr
      | ok p =>
        obtain ⟨ts2, c3⟩ := p
        rw [hr] at h
        cases h
    · rw [if_neg hmd] at h
      cases hg : get_tags env root cache f with
      | error e2 =>
        rw [hg] at h
        cases h
        exact get_tags_error_toolFail env root cache f e hg
      | ok p =>
        obtain ⟨ts1, c1⟩ := p
        rw [hg] at h
        dsimp only at h
        cases hr : collectTags env root c1 fs with
        | error e2 =>
          rw [hr] at h
          cases h
          exact collectTags_error_toolFail env root fs c1 e hr
        | ok q =>
          obtain ⟨ts2, c3⟩ := q
          rw [hr] at h
          cases h

theorem fname_to_components_ne_nil (fname : String) (wc : Bool) :
    fname_to_components fname wc ≠ [] := by
  unfold fname_to_components
  simp

theorem get_simple_files_map_some (env : CtagsEnv) (root : String)
    (other_files : List String) (hne : other_files ≠ []) :
    ∃ s, get_simple_files_map env root other_files = some s := by
  unfold get_simple_files_map
  refine to_tree_ok _ (by simpa using hne) ?_
  intro t ht
  obtain ⟨f, _, hf⟩ := List.mem_map.1 ht
  rw [← hf]
  exact fname_to_components_ne_nil _ _

theorem simpleFallback_ok (env : CtagsEnv) (root : String) (other_files : List String)
    (cache : TagsCache) (hne : other_files ≠ []) :
    ∃ r, simpleFallback env root other_files cache = .ok (r, cache) := by
  obtain ⟨s, hs⟩ := get_simple_files_map_some env root other_files hne
  unfold simpleFallback
  rw [hs]
  dsimp only
  by_cases hb : env.tokenCount s < 2048
  · exact ⟨some (s, ""), by rw [if_pos hb]⟩
  · exact ⟨none, by rw [if_neg hb]⟩

/-- Claim C10: `to_tree` on an empty list of tag lists fails (the
source indexes `tags[0]` unguarded, modelled as `none`), but that
failure is unreachable through the public entry: for empty
`other_files` the listing chooser returns absent before any rendering,
and for non-empty `other_files` (over any well-formed cache) neither
the tagged nor the plain path ever reaches an empty-rendering crash —
the only error that can surface is the uncaught tool failure. -/
theorem to_tree_empty_crash_unreachable :
    to_tree ([] : List (List String)) = none ∧
    (∀ (env : CtagsEnv) (root : String) (use_ctags : Bool) (cache : TagsCache),
        choose_files_listing env root use_ctags cache [] = .ok (none, cache)) ∧
    (∀ (env : CtagsEnv) (root : String) (use_ctags : Bool) (cache : TagsCache)
        (other_files : List String), wfCache cache = true → other_files ≠ [] →
        choose_files_listing env root use_ctags cache other_files ≠ .error .emptyTree) := by
  refine ⟨rfl, ?_, ?_⟩
  · intro env root use_ctags cache
    rfl
  · intro env root use_ctags cache other_files hwf hne
    have hisEmpty : other_files.isEmpty = false := by
      cases other_files with
      | nil => exact absurd rfl hne
      | cons a l => rfl
    unfold choose_files_listing
    simp only [hisEmpty, Bool.false_eq_true, if_false]
    cases use_ctags with
    | false =>
      rw [if_neg (by simp)]
      obtain ⟨r, hr⟩ := simpleFallback_ok env root other_files cache hne
      rw [hr]
      intro hcontra
      cases hcontra
    | true =>
      rw [if_pos rfl]
      unfold get_tags_map
      cases hc : collectTags env root cache other_files with
      | error e =>
        have he := collectTags_error_toolFail env root other_files cache e hc
        subst he
        intro hcontra
        cases hcontra
      | ok p =>
        obtain ⟨tags, c3⟩ := p
        obtain ⟨hall, hwf3, hne3⟩ := collectTags_wf env root other_files cache tags c3 hwf hc
        have htagsne : tags ≠ [] := hne3 hne
        have hisEmpty2 : tags.isEmpty = false := by
          cases tags with
          | nil => exact absurd rfl htagsne
          | cons a l => rfl
        simp only [hisEmpty2, Bool.false_eq_true, if_false]
        obtain ⟨s, hs⟩ := to_tree_ok tags htagsne hall
        rw [hs]
        dsimp only
        by_cases hb : env.tokenCount s < 2048
        · rw [if_pos hb]
          intro hcontra
          cases hcontra
        · rw [if_neg hb]
          obtain ⟨r, hr⟩ := simpleFallback_ok env root other_files c3 hne
          rw [hr]
          intro hcontra
          cases hcontra

/-- Witness for C10 with a non-empty candidate set over the empty
(well-formed) cache: the plain path returns without the empty-tree
crash. -/
theorem to_tree_empty_crash_unreachable_witness :
    choose_files_listing envBudget ("") false [] [("a.md")] ≠ .error .emptyTree :=
  (to_tree_empty_crash_unreachable).2.2 envBudget ("") false [] [("a.md")]
    (by decide) (by decide)
